import Mathlib

/-!
Verification development for the `grid1q` plane-wave quantum-chemistry code.

The embedding models the three modules of the source:
* `grid1q/operators/plane_wave.py` — kinetic matrix, electron–nucleus potential;
* `grid1q/utils/fourier_methods/fourier.py` — truncated DFT/IDFT, 1D and 2D;
* `grid1q/wavefunctions/plane_wave.py` — plane-wave functional and renormalisation.

Numpy floating-point arithmetic is modelled by exact real/complex arithmetic;
k-points are lists of integers, positions lists of reals, signals and fields
lists of complex numbers (a 2D grid is a list of rows).  Fallible numpy calls
(negative array sizes, division by an integer zero, NaN-producing division by a
zero norm) are modelled by `Except`-valued wrappers around the total functions.
-/

noncomputable section

open Complex

/-- `np.dot` on two integer vectors (componentwise product, summed). -/
def dotZ (a b : List ℤ) : ℤ := (List.zipWith (· * ·) a b).sum

/-- `np.dot` of an integer vector with a real vector, as in
`np.dot(k_bra - k_ket, r)`. -/
def dotZR (a : List ℤ) (r : List ℝ) : ℝ :=
  (List.zipWith (fun x y => Int.cast x * y) a r).sum

/-- `np.dot` of a real vector with an integer vector, as computed pointwise by
`np.tensordot(r, k, axes=([dim], [0]))` in the plane-wave closure. -/
def dotRZ (r : List ℝ) (k : List ℤ) : ℝ :=
  (List.zipWith (fun y x => y * Int.cast x) r k).sum

/-- Componentwise difference `k_bra - k_ket` of two k-points. -/
def kdiff (a b : List ℤ) : List ℤ := List.zipWith (· - ·) a b

/-- `np.linalg.norm` of an integer vector: the Euclidean norm. -/
def normEuc (d : List ℤ) : ℝ := Real.sqrt ((dotZ d d : ℤ) : ℝ)

/-- `kenetic(k_points, hbar, m)` from `grid1q/operators/plane_wave.py`:
`np.diag([(hbar**2 * np.dot(k, k) ** 2) / (2 * m) for k in k_points])`. -/
def kenetic (k_points : List (List ℤ)) (hbar m : ℝ) :
    Matrix (Fin k_points.length) (Fin k_points.length) ℂ :=
  Matrix.diagonal fun i =>
    (((hbar ^ 2 * ((dotZ (k_points.get i) (k_points.get i) : ℤ) : ℝ) ^ 2) /
      (2 * m) : ℝ) : ℂ)

/-- The loop body of `elec_nuc_potential_element`: one pass of
`for r in r_pos`, which resets the accumulator to `0` when
`np.array_equal(k_bra, k_ket)` and otherwise adds
`(4π / (cell_area * ‖k_bra - k_ket‖²)) * exp(-i⟨k_bra - k_ket, r⟩)`. -/
def elecNucStep (k_bra k_ket : List ℤ) (cell_area : ℝ) (acc : ℂ)
    (r : List ℝ) : ℂ :=
  if k_bra = k_ket then 0
  else
    acc + (((4 * Real.pi) / (cell_area * normEuc (kdiff k_bra k_ket) ^ 2) : ℝ) : ℂ) *
      Complex.exp (-Complex.I * ((dotZR (kdiff k_bra k_ket) r : ℝ) : ℂ))

/-- `elec_nuc_potential_element` from `grid1q/operators/plane_wave.py`
(the `(i, j)` bookkeeping of the worker tuple is dropped; this is the complex
matrix element accumulated over the nuclei of `r_pos`). -/
def elec_nuc_potential_element (k_bra k_ket : List ℤ) (r_pos : List (List ℝ))
    (cell_area : ℝ) : ℂ :=
  r_pos.foldl (elecNucStep k_bra k_ket cell_area) 0

/-- `elec_nuc_potential(k_points, cell_area, r_pos)`: the matrix whose `(i, j)`
entry is the worker result for the pair `(k_points[i], k_points[j])`; the
parallel fan-out/fan-in fills each entry independently by index. -/
def elec_nuc_potential (k_points : List (List ℤ)) (cell_area : ℝ)
    (r_pos : List (List ℝ)) :
    Matrix (Fin k_points.length) (Fin k_points.length) ℂ :=
  fun i j =>
    elec_nuc_potential_element (k_points.get i) (k_points.get j) r_pos cell_area

/-- `plane_wave_hamiltonian(k_points, cell_area, r_pos, hbar, m)`:
`kenetic(...) + elec_nuc_potential(...)`. -/
def plane_wave_hamiltonian (k_points : List (List ℤ)) (cell_area : ℝ)
    (r_pos : List (List ℝ)) (hbar m : ℝ) :
    Matrix (Fin k_points.length) (Fin k_points.length) ℂ :=
  kenetic k_points hbar m + elec_nuc_potential k_points cell_area r_pos

/-- One frequency component of `dft` from
`grid1q/utils/fourier_methods/fourier.py`:
`sum(signal[n] * exp(-1j*2*pi*k*n/len(signal)) for n in range(len(signal)))
 / len(signal)`. -/
def dftEntry (signal : List ℂ) (k : ℤ) : ℂ :=
  ((List.range signal.length).map fun n =>
      signal.getD n 0 *
        Complex.exp (-Complex.I * 2 * (Real.pi : ℂ) * (k : ℂ) * (n : ℂ) /
          (signal.length : ℂ))).sum /
    (signal.length : ℂ)

/-- `dft(signal, k_min, k_max)`: the truncated spectrum, entry `idx`
corresponding to frequency `k_min + idx`, for `idx < k_max - k_min`. -/
def dft (signal : List ℂ) (k_min k_max : ℤ) : List ℂ :=
  (List.range (k_max - k_min).toNat).map fun (idx : ℕ) =>
    dftEntry signal (k_min + idx)

/-- `dft` with the two numpy failure modes made explicit:
`np.zeros(k_max - k_min)` raises `ValueError` for a negative size, and the
final `sum_result / len(signal)` raises `ZeroDivisionError` on an empty signal
whenever the frequency loop runs at least once. -/
def dftChecked (signal : List ℂ) (k_min k_max : ℤ) : Except String (List ℂ) :=
  if k_max - k_min < 0 then
    Except.error "ValueError: negative dimensions are not allowed"
  else if signal.length = 0 ∧ k_min < k_max then
    Except.error "ZeroDivisionError: division by zero"
  else Except.ok (dft signal k_min k_max)

/-- One sample of `idft` from `grid1q/utils/fourier_methods/fourier.py`:
`sum(truncated_dft_result[k - k_min] * exp(1j*2*pi*k*n/sig_len)
 for k in range(k_min, k_max))` (no `1/N` renormalisation). -/
def idftEntry (spectrum : List ℂ) (sig_len : ℕ) (k_min k_max : ℤ)
    (n : ℕ) : ℂ :=
  ((List.range (k_max - k_min).toNat).map fun idx =>
      spectrum.getD idx 0 *
        Complex.exp (Complex.I * 2 * (Real.pi : ℂ) * ((k_min + idx : ℤ) : ℂ) *
          (n : ℂ) / (sig_len : ℂ))).sum

/-- `idft(truncated_dft_result, sig_len, k_min, k_max)`: the reconstructed
signal of length `sig_len`. -/
def idft (spectrum : List ℂ) (sig_len : ℕ) (k_min k_max : ℤ) : List ℂ :=
  (List.range sig_len).map (idftEntry spectrum sig_len k_min k_max)

/-- Numpy transpose `.T` of a rectangular grid stored as a list of rows. -/
def transposeGrid (g : List (List ℂ)) : List (List ℂ) :=
  (List.range (g.headD []).length).map fun j => g.map fun row => row.getD j 0

/-- `dft2(signal_2d, k_min, k_max)`: 1D `dft` of every row, then 1D `dft` of
every column of the intermediate, with the result transposed back
(`dft_columns.T`). -/
def dft2 (signal_2d : List (List ℂ)) (k_min k_max : ℤ) : List (List ℂ) :=
  let dft_rows := signal_2d.map fun row => dft row k_min k_max
  let dft_columns := (List.range (dft_rows.headD []).length).map fun col =>
    dft (dft_rows.map fun r => r.getD col 0) k_min k_max
  transposeGrid dft_columns

/-- `idft2(truncated_dft_2d, original_shape, k_min, k_max)`: 1D `idft` of every
column (transposed back, `idft_cols`), then 1D `idft` of every row of the
intermediate. -/
def idft2 (t : List (List ℂ)) (shape0 shape1 : ℕ) (k_min k_max : ℤ) :
    List (List ℂ) :=
  let idft_cols_pre := (List.range (t.headD []).length).map fun col =>
    idft (t.map fun r => r.getD col 0) shape0 k_min k_max
  let idft_cols := transposeGrid idft_cols_pre
  idft_cols.map fun row => idft row shape1 k_min k_max

/-- `plane_wave(coeffs_dict)` from `grid1q/wavefunctions/plane_wave.py`, with
the dictionary modelled as a list of key/value pairs and the vectorised
`tensordot` evaluation modelled pointwise: the returned spatial function is
`r ↦ Σ_k coeffs[k] * exp(iπ⟨r, k⟩)`. -/
def plane_wave (coeffs : List (List ℤ × ℂ)) : List ℝ → ℂ :=
  fun r =>
    (coeffs.map fun kc =>
      kc.2 * Complex.exp ((Real.pi : ℂ) * Complex.I *
        ((dotRZ r kc.1 : ℝ) : ℂ))).sum

/-- `np.linalg.norm` of a flattened complex field: the L2 norm. -/
def l2norm (v : List ℂ) : ℝ := Real.sqrt ((v.map Complex.normSq).sum)

/-- `plane_wave_renorm(plane_wave_r)`: the field divided componentwise by its
flattened L2 norm (flatten/divide/reshape acts on the flattened data). -/
def plane_wave_renorm (v : List ℂ) : List ℂ :=
  v.map fun z => z / ((l2norm v : ℝ) : ℂ)

/-- `plane_wave_renorm` with the zero-field failure made explicit: for an
identically zero field the source divides by `0.0`, which numpy flags with a
runtime warning and a NaN-filled result; this is modelled as an error value. -/
def plane_wave_renormChecked (v : List ℂ) : Except String (List ℂ) :=
  if l2norm v = 0 then
    Except.error "RuntimeWarning: invalid value encountered in divide"
  else Except.ok (plane_wave_renorm v)

end

/-! ### Helper lemmas -/

theorem list_range_map_sum (n : ℕ) (f : ℕ → ℂ) :
    ((List.range n).map f).sum = ∑ i in Finset.range n, f i := by
  induction n with
  | zero => simp
  | succ m ih =>
    rw [List.range_succ, List.map_append, List.sum_append,
      Finset.sum_range_succ, ih]
    simp

theorem foldl_add_map {α : Type} (f : α → ℂ) (l : List α) (a : ℂ) :
    l.foldl (fun acc x => acc + f x) a = a + (l.map f).sum := by
  induction l generalizing a with
  | nil => simp
  | cons x xs ih => simp [ih, add_assoc]

theorem dotZ_self_zero (k : List ℤ) (h : ∀ x ∈ k, x = 0) : dotZ k k = 0 := by
  induction k with
  | nil => rfl
  | cons x xs ih =>
    have hx : x = 0 := h x (List.mem_cons_self x xs)
    have hxs : ∀ y ∈ xs, y = 0 := fun y hy => h y (List.mem_cons_of_mem x hy)
    simp [dotZ, List.zipWith] at ih ⊢
    simp [hx, ih hxs]

theorem elec_nuc_potential_element_of_eq (k_bra k_ket : List ℤ)
    (r_pos : List (List ℝ)) (cell_area : ℝ) (h : k_bra = k_ket) :
    elec_nuc_potential_element k_bra k_ket r_pos cell_area = 0 := by
  unfold elec_nuc_potential_element
  induction r_pos with
  | nil => rfl
  | cons r rs ih =>
    rw [List.foldl_cons]
    have hstep : elecNucStep k_bra k_ket cell_area 0 r = 0 := by
      simp [elecNucStep, h]
    rw [hstep]
    exact ih

theorem elec_nuc_potential_element_of_ne (k_bra k_ket : List ℤ)
    (r_pos : List (List ℝ)) (cell_area : ℝ) (h : k_bra ≠ k_ket) :
    elec_nuc_potential_element k_bra k_ket r_pos cell_area =
      (r_pos.map fun r =>
        (((4 * Real.pi) / (cell_area * normEuc (kdiff k_bra k_ket) ^ 2) : ℝ) : ℂ) *
          Complex.exp (-Complex.I * ((dotZR (kdiff k_bra k_ket) r : ℝ) : ℂ))).sum := by
  unfold elec_nuc_potential_element
  have hstep : elecNucStep k_bra k_ket cell_area = fun acc r =>
      acc + (((4 * Real.pi) / (cell_area * normEuc (kdiff k_bra k_ket) ^ 2) : ℝ) : ℂ) *
        Complex.exp (-Complex.I * ((dotZR (kdiff k_bra k_ket) r : ℝ) : ℂ)) := by
    funext acc r
    simp [elecNucStep, h]
  rw [hstep, foldl_add_map]
  simp

/-! ### Claims about the Hamiltonian assembler -/

/-- C2: for every k-point set and positive `hbar`, `m`, the kinetic matrix is
zero off the diagonal, entry `(i,i)` is `ħ²(kᵢ·kᵢ)²/(2m)`, and the entry of an
all-zero k-point is exactly `0`. -/
theorem kenetic_diagonal_spec (k_points : List (List ℤ)) (hbar m : ℝ)
    (_hh : 0 < hbar) (_hm : 0 < m) :
    (∀ i j : Fin k_points.length, i ≠ j → kenetic k_points hbar m i j = 0) ∧
    (∀ i : Fin k_points.length,
      kenetic k_points hbar m i i =
        (((hbar ^ 2 * ((dotZ (k_points.get i) (k_points.get i) : ℤ) : ℝ) ^ 2) /
          (2 * m) : ℝ) : ℂ)) ∧
    (∀ i : Fin k_points.length, (∀ x ∈ k_points.get i, x = 0) →
      kenetic k_points hbar m i i = 0) := by
  refine ⟨fun i j hij => Matrix.diagonal_apply_ne _ hij,
    fun i => Matrix.diagonal_apply_eq _ i, fun i hzero => ?_⟩
  rw [kenetic, Matrix.diagonal_apply_eq, dotZ_self_zero _ hzero]
  norm_num

/-- Witness for C2 at `k_points = [[0], [1]]`, `hbar = m = 1`. -/
theorem kenetic_diagonal_spec_witness :
    kenetic [[0], [1]] 1 1 ⟨0, by decide⟩ ⟨1, by decide⟩ = 0 ∧
    kenetic [[0], [1]] 1 1 ⟨0, by decide⟩ ⟨0, by decide⟩ = 0 := by
  have h := kenetic_diagonal_spec [[0], [1]] 1 1 one_pos one_pos
  exact ⟨h.1 ⟨0, by decide⟩ ⟨1, by decide⟩ (by decide),
    h.2.2 ⟨0, by decide⟩ (by decide)⟩

/-- C3: whenever `k_bra` and `k_ket` are componentwise equal, the matrix
element is exactly `0`, for any nuclei and cell area; consequently every
entry of `elec_nuc_potential` between equal k-points (diagonal included)
is `0`. -/
theorem elec_nuc_potential_zero_of_eq (k_points : List (List ℤ))
    (cell_area : ℝ) (r_pos : List (List ℝ)) (k_bra k_ket : List ℤ)
    (h : k_bra = k_ket) :
    elec_nuc_potential_element k_bra k_ket r_pos cell_area = 0 ∧
    ∀ i j : Fin k_points.length, k_points.get i = k_points.get j →
      elec_nuc_potential k_points cell_area r_pos i j = 0 := by
  exact ⟨elec_nuc_potential_element_of_eq _ _ _ _ h,
    fun i j hij => elec_nuc_potential_element_of_eq _ _ _ _ hij⟩

/-- Witness for C3 at `k_bra = k_ket = [2]`, one nucleus, `cell_area = 5`. -/
theorem elec_nuc_potential_zero_of_eq_witness :
    elec_nuc_potential_element [2] [2] [[0.25]] 5 = 0 ∧
    elec_nuc_potential [[2]] 5 [[0.25]] ⟨0, by decide⟩ ⟨0, by decide⟩ = 0 := by
  have h := elec_nuc_potential_zero_of_eq [[2]] 5 [[0.25]] [2] [2] rfl
  exact ⟨h.1, h.2 ⟨0, by decide⟩ ⟨0, by decide⟩ rfl⟩

/-- C1 counterexample: on the spec's own example inputs the kinetic entry for
`k = (1,)` with `hbar = m = 1` is `1/2`, not `1` as `diag(0, 1)` asserts. -/
theorem c1_kenetic_counterexample :
    kenetic [[0], [1]] 1 1 ⟨1, by decide⟩ ⟨1, by decide⟩ ≠ 1 := by
  rw [kenetic, Matrix.diagonal_apply_eq]
  simp only [List.get, dotZ, List.zipWith, List.sum_cons, List.sum_nil]
  intro h
  rw [Complex.ofReal_eq_one] at h
  norm_num at h

/-- C1 amended: on the example inputs the kinetic matrix is `diag(0, 1/2)`
(not `diag(0, 1)`), and the electron–nucleus potential has both off-diagonal
entries `4π` and both diagonal entries `0`. -/
theorem c1_example_amended :
    kenetic [[0], [1]] 1 1 ⟨0, by decide⟩ ⟨0, by decide⟩ = 0 ∧
    kenetic [[0], [1]] 1 1 ⟨1, by decide⟩ ⟨1, by decide⟩ = (1 / 2 : ℂ) ∧
    kenetic [[0], [1]] 1 1 ⟨0, by decide⟩ ⟨1, by decide⟩ = 0 ∧
    kenetic [[0], [1]] 1 1 ⟨1, by decide⟩ ⟨0, by decide⟩ = 0 ∧
    elec_nuc_potential [[0], [1]] 1 [[0]] ⟨0, by decide⟩ ⟨1, by decide⟩ =
      ((4 * Real.pi : ℝ) : ℂ) ∧
    elec_nuc_potential [[0], [1]] 1 [[0]] ⟨1, by decide⟩ ⟨0, by decide⟩ =
      ((4 * Real.pi : ℝ) : ℂ) ∧
    elec_nuc_potential [[0], [1]] 1 [[0]] ⟨0, by decide⟩ ⟨0, by decide⟩ = 0 ∧
    elec_nuc_potential [[0], [1]] 1 [[0]] ⟨1, by decide⟩ ⟨1, by decide⟩ = 0 := by
  refine ⟨?_, ?_, ?_, ?_, ?_, ?_, ?_, ?_⟩
  · rw [kenetic, Matrix.diagonal_apply_eq]
    simp [dotZ, List.zipWith]
  · rw [kenetic, Matrix.diagonal_apply_eq]
    simp only [List.get, dotZ, List.zipWith, List.sum_cons, List.sum_nil]
    norm_num
  · exact Matrix.diagonal_apply_ne _ (by decide)
  · exact Matrix.diagonal_apply_ne _ (by decide)
  · show elec_nuc_potential_element [0] [1] [[0]] 1 = _
    rw [elec_nuc_potential_element_of_ne _ _ _ _ (by decide)]
    have hk : kdiff [0] [1] = [-1] := rfl
    have hn : normEuc [-1] = 1 := by
      simp [normEuc, dotZ, List.zipWith]
    have hd : dotZR [-1] [(0 : ℝ)] = 0 := by
      simp [dotZR, List.zipWith]
    rw [hk]
    simp [hn, hd]
  · show elec_nuc_potential_element [1] [0] [[0]] 1 = _
    rw [elec_nuc_potential_element_of_ne _ _ _ _ (by decide)]
    have hk : kdiff [1] [0] = [1] := rfl
    have hn : normEuc [1] = 1 := by
      simp [normEuc, dotZ, List.zipWith]
    have hd : dotZR [1] [(0 : ℝ)] = 0 := by
      simp [dotZR, List.zipWith]
    rw [hk]
    simp [hn, hd]
  · exact elec_nuc_potential_element_of_eq _ _ _ _ rfl
  · exact elec_nuc_potential_element_of_eq _ _ _ _ rfl

/-! ### Claims about the plane-wave functional -/

/-- C6: for a single-coefficient mapping `{(1,0): c}` the plane-wave function
evaluated at `r = (0,0)` returns exactly `c`. -/
theorem plane_wave_single_coeff (c : ℂ) :
    plane_wave [([1, 0], c)] [0, 0] = c := by
  have hd : dotRZ [(0 : ℝ), 0] [1, 0] = 0 := by
    simp [dotRZ, List.zipWith]
  simp [plane_wave, hd]

theorem list_map_div_sum (v : List ℂ) (g : ℂ → ℝ) (d : ℝ) :
    (v.map fun z => g z / d).sum = (v.map g).sum / d := by
  induction v with
  | nil => simp
  | cons z zs ih => simp [ih, add_div]

theorem sum_normSq_nonneg (v : List ℂ) : 0 ≤ (v.map Complex.normSq).sum := by
  apply List.sum_nonneg
  intro x hx
  obtain ⟨z, _, rfl⟩ := List.mem_map.mp hx
  exact Complex.normSq_nonneg z

theorem sum_normSq_pos (v : List ℂ) (h : ∃ z ∈ v, z ≠ 0) :
    0 < (v.map Complex.normSq).sum := by
  obtain ⟨z, hz, hz0⟩ := h
  have hle : Complex.normSq z ≤ (v.map Complex.normSq).sum := by
    apply List.single_le_sum
    · intro x hx
      obtain ⟨w, _, rfl⟩ := List.mem_map.mp hx
      exact Complex.normSq_nonneg w
    · exact List.mem_map_of_mem Complex.normSq hz
  exact lt_of_lt_of_le (Complex.normSq_pos.mpr hz0) hle

/-- C7: for any field with a non-zero entry, the renormalised field has the
same length (shape) and flattened L2 norm exactly `1`; for an identically zero
field the division by the zero norm is flagged (NaN production in the source,
modelled as an error value). -/
theorem plane_wave_renorm_spec (v : List ℂ) :
    ((∃ z ∈ v, z ≠ 0) →
      ∃ w, plane_wave_renormChecked v = Except.ok w ∧
        w.length = v.length ∧ l2norm w = 1) ∧
    ((∀ z ∈ v, z = 0) →
      plane_wave_renormChecked v =
        Except.error "RuntimeWarning: invalid value encountered in divide") := by
  constructor
  · intro h
    have hS : 0 < (v.map Complex.normSq).sum := sum_normSq_pos v h
    have hc : 0 < l2norm v := Real.sqrt_pos.mpr hS
    refine ⟨plane_wave_renorm v, ?_, by simp [plane_wave_renorm], ?_⟩
    · rw [plane_wave_renormChecked, if_neg (ne_of_gt hc)]
    · have hcc : l2norm v * l2norm v = (v.map Complex.normSq).sum :=
        Real.mul_self_sqrt (le_of_lt hS)
      have hmap : ((plane_wave_renorm v).map Complex.normSq).sum =
          (v.map Complex.normSq).sum / (l2norm v * l2norm v) := by
        rw [plane_wave_renorm, List.map_map]
        have heq : (Complex.normSq ∘ fun z => z / ((l2norm v : ℝ) : ℂ)) =
            fun z => Complex.normSq z / (l2norm v * l2norm v) := by
          funext z
          simp [Complex.normSq_div, Complex.normSq_ofReal]
        rw [heq, list_map_div_sum]
      rw [l2norm, hmap, hcc, div_self (ne_of_gt hS), Real.sqrt_one]
  · intro h
    have hS : (v.map Complex.normSq).sum = 0 := by
      apply List.sum_eq_zero
      intro x hx
      obtain ⟨z, hz, rfl⟩ := List.mem_map.mp hx
      simp [h z hz]
    have hc : l2norm v = 0 := by rw [l2norm, hS, Real.sqrt_zero]
    rw [plane_wave_renormChecked, if_pos hc]

/-- Witness for C7 at the one-entry non-zero field `[1]`. -/
theorem plane_wave_renorm_spec_witness :
    ∃ w, plane_wave_renormChecked [(1 : ℂ)] = Except.ok w ∧
      w.length = 1 ∧ l2norm w = 1 := by
  have h := (plane_wave_renorm_spec [(1 : ℂ)]).1 ⟨1, by simp, one_ne_zero⟩
  simpa using h

theorem kdiff_neg (a b : List ℤ) : kdiff b a = (kdiff a b).map fun x => -x := by
  induction a generalizing b with
  | nil => cases b <;> simp [kdiff]
  | cons x xs ih =>
    cases b with
    | nil => simp [kdiff]
    | cons y ys =>
      simp only [kdiff] at ih ⊢
      simp only [List.zipWith_cons_cons, List.map_cons]
      rw [neg_sub, ih ys]

theorem dotZ_map_neg (d : List ℤ) :
    dotZ (d.map fun x => -x) (d.map fun x => -x) = dotZ d d := by
  induction d with
  | nil => rfl
  | cons x xs ih =>
    simp only [dotZ, List.map_cons, List.zipWith_cons_cons, List.sum_cons] at ih ⊢
    rw [neg_mul_neg, ih]

theorem dotZR_map_neg (d : List ℤ) (r : List ℝ) :
    dotZR (d.map fun x => -x) r = -dotZR d r := by
  induction d generalizing r with
  | nil => simp [dotZR]
  | cons x xs ih =>
    cases r with
    | nil => simp [dotZR]
    | cons y ys =>
      simp only [dotZR, List.map_cons, List.zipWith_cons_cons,
        List.sum_cons] at ih ⊢
      rw [ih ys, Int.cast_neg]
      ring

theorem elec_nuc_potential_element_conj (ka kb : List ℤ)
    (r_pos : List (List ℝ)) (A : ℝ) :
    elec_nuc_potential_element ka kb r_pos A =
      (starRingEnd ℂ) (elec_nuc_potential_element kb ka r_pos A) := by
  by_cases h : ka = kb
  · rw [elec_nuc_potential_element_of_eq _ _ _ _ h,
      elec_nuc_potential_element_of_eq _ _ _ _ h.symm, map_zero]
  · rw [elec_nuc_potential_element_of_ne _ _ _ _ h,
      elec_nuc_potential_element_of_ne _ _ _ _ (Ne.symm h),
      map_list_sum, List.map_map]
    refine congrArg List.sum (List.map_congr_left ?_)
    intro r _
    simp only [Function.comp_apply, kdiff_neg ka kb, dotZ_map_neg,
      dotZR_map_neg, normEuc, map_mul, Complex.conj_ofReal,
      ← Complex.exp_conj, map_neg, Complex.conj_I, Complex.ofReal_neg]
    ring_nf

/-- C4: for any k-point set of a common dimension, any cell area and any
nuclei, the electron–nucleus potential matrix is Hermitian:
`V[i,j] = conj(V[j,i])`. -/
theorem elec_nuc_potential_hermitian (k_points : List (List ℤ))
    (cell_area : ℝ) (r_pos : List (List ℝ)) (d : ℕ)
    (_hdim : ∀ k ∈ k_points, k.length = d) :
    ∀ i j : Fin k_points.length,
      elec_nuc_potential k_points cell_area r_pos i j =
        (starRingEnd ℂ) (elec_nuc_potential k_points cell_area r_pos j i) :=
  fun _ _ => elec_nuc_potential_element_conj _ _ _ _

/-- Witness for C4 at `k_points = [[0], [1]]`, `cell_area = 1`, one nucleus. -/
theorem elec_nuc_potential_hermitian_witness :
    elec_nuc_potential [[0], [1]] 1 [[0.7]] ⟨0, by decide⟩ ⟨1, by decide⟩ =
      (starRingEnd ℂ)
        (elec_nuc_potential [[0], [1]] 1 [[0.7]] ⟨1, by decide⟩ ⟨0, by decide⟩) :=
  elec_nuc_potential_hermitian [[0], [1]] 1 [[0.7]] 1 (by decide)
    ⟨0, by decide⟩ ⟨1, by decide⟩

/-! ### Claims about the transform engine error behaviour -/

/-- C8 counterexample: for `k_min = 1 > k_max = 0` the source does not return
an empty spectrum — `np.zeros(k_max - k_min)` with a negative size raises
`ValueError`, so no output is produced. -/
theorem dft_negative_window_counterexample :
    dftChecked [(1 : ℂ)] 1 0 =
      Except.error "ValueError: negative dimensions are not allowed" := by
  rw [dftChecked, if_pos (by norm_num)]

/-- C8 amended: for `k_max = k_min` the result is an empty spectrum with no
error; for `k_max < k_min` the negative-size output allocation fails, so the
call raises instead of producing an empty result. -/
theorem dft_empty_window_amended (signal : List ℂ) (k_min k_max : ℤ) :
    (k_max = k_min → dftChecked signal k_min k_max = Except.ok []) ∧
    (k_max < k_min → dftChecked signal k_min k_max =
      Except.error "ValueError: negative dimensions are not allowed") := by
  constructor
  · intro h
    subst h
    rw [dftChecked, if_neg (by omega), if_neg (by simp), dft]
    simp
  · intro h
    rw [dftChecked, if_pos (by omega)]

/-- Witness for C8 (amended) at `signal = [1]`, windows `[0,0)` and `[1,0)`. -/
theorem dft_empty_window_amended_witness :
    dftChecked [(1 : ℂ)] 0 0 = Except.ok [] ∧
    dftChecked [(1 : ℂ)] 2 0 =
      Except.error "ValueError: negative dimensions are not allowed" :=
  ⟨(dft_empty_window_amended [(1 : ℂ)] 0 0).1 rfl,
    (dft_empty_window_amended [(1 : ℂ)] 2 0).2 (by norm_num)⟩

/-- C10: on an empty signal every window with `k_min < k_max` reaches the
`sum_result / len(signal)` division and fails with `ZeroDivisionError`; a
non-empty signal is a sufficient precondition for the division to be
well-defined on every frequency of the window. -/
theorem dft_empty_signal_div_zero (signal : List ℂ) (k_min k_max : ℤ) :
    (signal = [] → k_min < k_max →
      dftChecked signal k_min k_max =
        Except.error "ZeroDivisionError: division by zero") ∧
    (signal ≠ [] → k_min ≤ k_max →
      dftChecked signal k_min k_max = Except.ok (dft signal k_min k_max)) := by
  constructor
  · intro hs hk
    subst hs
    rw [dftChecked, if_neg (by omega), if_pos ⟨rfl, hk⟩]
  · intro hs hk
    rw [dftChecked, if_neg (by omega), if_neg ?_]
    intro hcontra
    exact hs (List.length_eq_zero.mp hcontra.1)

/-- Witness for C10 at the empty signal with window `[0, 2)` and the non-empty
signal `[1]` with window `[0, 1)`. -/
theorem dft_empty_signal_div_zero_witness :
    dftChecked ([] : List ℂ) 0 2 =
      Except.error "ZeroDivisionError: division by zero" ∧
    dftChecked [(1 : ℂ)] 0 1 = Except.ok (dft [(1 : ℂ)] 0 1) :=
  ⟨(dft_empty_signal_div_zero [] 0 2).1 rfl (by norm_num),
    (dft_empty_signal_div_zero [(1 : ℂ)] 0 1).2 (by simp) (by norm_num)⟩

/-! ### Claims about the transform engine: full-band round trip -/

theorem getD_map_range (n : ℕ) (f : ℕ → ℂ) (i : ℕ) (h : i < n) :
    ((List.range n).map f).getD i 0 = f i := by
  rw [List.getD_eq_getElem?_getD]
  simp [List.getElem?_map, List.getElem?_range, h]

theorem sum_exp_unit_root (N : ℕ) (hN : 0 < N) (d : ℤ) (hd0 : d ≠ 0)
    (hdlt : d.natAbs < N) :
    ∑ k in Finset.range N,
      Complex.exp (Complex.I * 2 * (Real.pi : ℂ) * (k : ℂ) * (d : ℂ) /
        (N : ℂ)) = 0 := by
  have hNc : (N : ℂ) ≠ 0 := Nat.cast_ne_zero.mpr hN.ne'
  have hπ : (Real.pi : ℂ) ≠ 0 := Complex.ofReal_ne_zero.mpr Real.pi_ne_zero
  set ζ : ℂ := Complex.exp (Complex.I * 2 * (Real.pi : ℂ) * (d : ℂ) / (N : ℂ))
    with hζ
  have hterm : ∀ k : ℕ,
      Complex.exp (Complex.I * 2 * (Real.pi : ℂ) * (k : ℂ) * (d : ℂ) /
        (N : ℂ)) = ζ ^ k := by
    intro k
    rw [hζ, ← Complex.exp_nat_mul]
    congr 1
    ring
  have hζN : ζ ^ N = 1 := by
    rw [hζ, ← Complex.exp_nat_mul]
    have harg : (N : ℂ) * (Complex.I * 2 * (Real.pi : ℂ) * (d : ℂ) / (N : ℂ)) =
        (d : ℂ) * (2 * (Real.pi : ℂ) * Complex.I) := by
      field_simp
      ring
    rw [harg]
    exact Complex.exp_int_mul_two_pi_mul_I d
  have hζ1 : ζ ≠ 1 := by
    intro h1
    obtain ⟨m, hm⟩ := Complex.exp_eq_one_iff.mp (hζ ▸ h1)
    have hm' : Complex.I * 2 * (Real.pi : ℂ) * (d : ℂ) =
        (m : ℂ) * (2 * (Real.pi : ℂ) * Complex.I) * (N : ℂ) :=
      (div_eq_iff hNc).mp hm
    have hne : (2 * (Real.pi : ℂ) * Complex.I) ≠ 0 := by
      simp [hπ, Complex.I_ne_zero]
    have hdm : (d : ℂ) = (m : ℂ) * (N : ℂ) := by
      apply mul_left_cancel₀ hne
      linear_combination hm'
    have hdZ : d = m * (N : ℤ) := by exact_mod_cast hdm
    have hmne : m ≠ 0 := by
      intro h0
      rw [h0] at hdZ
      simp at hdZ
      exact hd0 hdZ
    have habs : d.natAbs = m.natAbs * N := by
      rw [hdZ, Int.natAbs_mul]
      simp
    have hge : N ≤ d.natAbs := by
      rw [habs]
      have : 1 ≤ m.natAbs := Nat.one_le_iff_ne_zero.mpr (Int.natAbs_ne_zero.mpr hmne)
      calc N = 1 * N := (one_mul N).symm
      _ ≤ m.natAbs * N := Nat.mul_le_mul_right N this
    omega
  calc ∑ k in Finset.range N,
      Complex.exp (Complex.I * 2 * (Real.pi : ℂ) * (k : ℂ) * (d : ℂ) / (N : ℂ))
      = ∑ k in Finset.range N, ζ ^ k :=
        Finset.sum_congr rfl fun k _ => hterm k
    _ = (ζ ^ N - 1) / (ζ - 1) := geom_sum_eq hζ1 N
    _ = 0 := by rw [hζN]; simp

theorem sum_exp_orthogonal (N : ℕ) (hN : 0 < N) (m n : ℕ) (_hm : m < N)
    (hn : n < N) (hmn : m ≠ n) :
    ∑ k in Finset.range N,
      Complex.exp (Complex.I * 2 * (Real.pi : ℂ) * (k : ℂ) *
        (((n : ℤ) - (m : ℤ) : ℤ) : ℂ) / (N : ℂ)) = 0 := by
  apply sum_exp_unit_root N hN ((n : ℤ) - (m : ℤ)) (by omega) (by omega)

theorem dft_inversion_sum (N : ℕ) (hN : 0 < N) (f : ℕ → ℂ) (n : ℕ)
    (hn : n < N) :
    ∑ k in Finset.range N,
      ((∑ m in Finset.range N,
        f m * Complex.exp (-Complex.I * 2 * (Real.pi : ℂ) * (k : ℂ) * (m : ℂ) /
          (N : ℂ))) / (N : ℂ)) *
        Complex.exp (Complex.I * 2 * (Real.pi : ℂ) * (k : ℂ) * (n : ℂ) /
          (N : ℂ)) = f n := by
  have hNc : (N : ℂ) ≠ 0 := Nat.cast_ne_zero.mpr hN.ne'
  have step1 : ∀ k ∈ Finset.range N,
      ((∑ m in Finset.range N,
        f m * Complex.exp (-Complex.I * 2 * (Real.pi : ℂ) * (k : ℂ) * (m : ℂ) /
          (N : ℂ))) / (N : ℂ)) *
        Complex.exp (Complex.I * 2 * (Real.pi : ℂ) * (k : ℂ) * (n : ℂ) /
          (N : ℂ)) =
      ∑ m in Finset.range N,
        f m * Complex.exp (Complex.I * 2 * (Real.pi : ℂ) * (k : ℂ) *
          (((n : ℤ) - (m : ℤ) : ℤ) : ℂ) / (N : ℂ)) / (N : ℂ) := by
    intro k _
    rw [div_mul_eq_mul_div, Finset.sum_mul, Finset.sum_div]
    apply Finset.sum_congr rfl
    intro m _
    rw [mul_assoc, ← Complex.exp_add]
    congr 2
    push_cast
    ring_nf
  rw [Finset.sum_congr rfl step1, Finset.sum_comm]
  have step2 : ∀ m ∈ Finset.range N,
      ∑ k in Finset.range N,
        f m * Complex.exp (Complex.I * 2 * (Real.pi : ℂ) * (k : ℂ) *
          (((n : ℤ) - (m : ℤ) : ℤ) : ℂ) / (N : ℂ)) / (N : ℂ) =
      if m = n then f n else 0 := by
    intro m hm
    by_cases hmn : m = n
    · subst hmn
      rw [if_pos rfl]
      have hone : ∀ k ∈ Finset.range N,
          f m * Complex.exp (Complex.I * 2 * (Real.pi : ℂ) * (k : ℂ) *
            (((m : ℤ) - (m : ℤ) : ℤ) : ℂ) / (N : ℂ)) / (N : ℂ) =
          f m / (N : ℂ) := by
        intro k _
        norm_num
      rw [Finset.sum_congr rfl hone, Finset.sum_const, Finset.card_range,
        nsmul_eq_mul]
      field_simp
    · rw [if_neg hmn]
      have hfact : ∀ k ∈ Finset.range N,
          f m * Complex.exp (Complex.I * 2 * (Real.pi : ℂ) * (k : ℂ) *
            (((n : ℤ) - (m : ℤ) : ℤ) : ℂ) / (N : ℂ)) / (N : ℂ) =
          (f m / (N : ℂ)) *
            Complex.exp (Complex.I * 2 * (Real.pi : ℂ) * (k : ℂ) *
              (((n : ℤ) - (m : ℤ) : ℤ) : ℂ) / (N : ℂ)) := by
        intro k _
        ring
      rw [Finset.sum_congr rfl hfact, ← Finset.mul_sum,
        sum_exp_orthogonal N hN m n (Finset.mem_range.mp hm) hn hmn, mul_zero]
  rw [Finset.sum_congr rfl step2]
  simp [Finset.sum_ite_eq', Finset.mem_range.mpr hn]

/-- C5: the full-band round trip `idft(dft(signal, 0, N), N, 0, N)` with
`N = len(signal) ≥ 1` reconstructs the signal exactly (the `1/N` forward
normalisation cancels against the unnormalised inverse over the full
spectrum). -/
theorem dft_idft_roundtrip (signal : List ℂ) (h : 1 ≤ signal.length) :
    idft (dft signal 0 (signal.length : ℤ)) signal.length 0
      (signal.length : ℤ) = signal := by
  have hN0 : 0 < signal.length := h
  have htoNat : ((signal.length : ℤ) - 0).toNat = signal.length := by simp
  apply List.ext_get
  · simp [idft]
  intro n h1 h2
  simp only [idft, List.get_eq_getElem, List.getElem_map, List.getElem_range]
  rw [idftEntry, htoNat, list_range_map_sum]
  have step0 : ∀ idx ∈ Finset.range signal.length,
      (dft signal 0 (signal.length : ℤ)).getD idx 0 *
        Complex.exp (Complex.I * 2 * (Real.pi : ℂ) *
          (((0 : ℤ) + (idx : ℕ) : ℤ) : ℂ) * (n : ℂ) / (signal.length : ℂ)) =
      ((∑ m in Finset.range signal.length,
        signal.getD m 0 * Complex.exp (-Complex.I * 2 * (Real.pi : ℂ) *
          (idx : ℂ) * (m : ℂ) / (signal.length : ℂ))) / (signal.length : ℂ)) *
        Complex.exp (Complex.I * 2 * (Real.pi : ℂ) * (idx : ℂ) * (n : ℂ) /
          (signal.length : ℂ)) := by
    intro idx hidx
    rw [dft, htoNat, getD_map_range _ _ _ (Finset.mem_range.mp hidx),
      dftEntry, list_range_map_sum]
    norm_num
  rw [Finset.sum_congr rfl step0,
    dft_inversion_sum signal.length hN0 (fun m => signal.getD m 0) n h2]
  simp [List.getD_eq_getElem?_getD, List.getElem?_eq_getElem h2]

/-- Witness for C5 at the length-one signal `[42]`. -/
theorem dft_idft_roundtrip_witness :
    idft (dft [(42 : ℂ)] 0 1) 1 0 1 = [(42 : ℂ)] := by
  have h := dft_idft_roundtrip [(42 : ℂ)] (by simp)
  simpa using h

/-! ### Claims about the 2D transforms -/

theorem getD_map_range_list (n : ℕ) (f : ℕ → List ℂ) (i : ℕ) (h : i < n) :
    ((List.range n).map f).getD i [] = f i := by
  rw [List.getD_eq_getElem?_getD]
  simp [List.getElem?_map, List.getElem?_range, h]

theorem headD_map_range_list (n : ℕ) (f : ℕ → List ℂ) (h : 0 < n) :
    ((List.range n).map f).headD [] = f 0 := by
  cases n with
  | zero => omega
  | succ m =>
    rw [List.range_succ_eq_map]
    simp

theorem dft_length (signal : List ℂ) (k_min k_max : ℤ) :
    (dft signal k_min k_max).length = (k_max - k_min).toNat := by
  simp [dft]

theorem idft_length (spectrum : List ℂ) (sig_len : ℕ) (k_min k_max : ℤ) :
    (idft spectrum sig_len k_min k_max).length = sig_len := by
  simp [idft]

theorem dft_getD (signal : List ℂ) (k_min k_max : ℤ) (a : ℕ)
    (ha : a < (k_max - k_min).toNat) :
    (dft signal k_min k_max).getD a 0 = dftEntry signal (k_min + a) := by
  rw [dft]
  exact getD_map_range _ _ _ ha

theorem idft_getD (spectrum : List ℂ) (sig_len : ℕ) (k_min k_max : ℤ) (i : ℕ)
    (hi : i < sig_len) :
    (idft spectrum sig_len k_min k_max).getD i 0 =
      idftEntry spectrum sig_len k_min k_max i := by
  rw [idft]
  exact getD_map_range _ _ _ hi

/-- C9: on a non-empty rectangular grid with a window `k_min < k_max`, `dft2`
is the separable transform — entry `(a, b)` is the 1D `dft` of every row at
frequency `k_min + b` followed by the 1D `dft` of the resulting column at
frequency `k_min + a`, the transpose restoring the input axis order — and
`idft2` applies the 1D `idft` in the mirror order, columns (with `shape0`)
then rows (with `shape1`). -/
theorem dft2_idft2_separable (s t : List (List ℂ)) (k_min k_max : ℤ)
    (C Ct shape0 shape1 : ℕ)
    (hs : 0 < s.length) (_hrect : ∀ row ∈ s, row.length = C)
    (ht : 0 < t.length) (htrect : ∀ row ∈ t, row.length = Ct) (hCt : 0 < Ct)
    (hk : k_min < k_max) :
    (∀ a b : ℕ, a < (k_max - k_min).toNat → b < (k_max - k_min).toNat →
      ((dft2 s k_min k_max).getD a []).getD b 0 =
        dftEntry (s.map fun row => dftEntry row (k_min + b)) (k_min + a)) ∧
    (∀ rr cc : ℕ, rr < shape0 → cc < shape1 →
      ((idft2 t shape0 shape1 k_min k_max).getD rr []).getD cc 0 =
        idftEntry ((List.range Ct).map fun col =>
            idftEntry (t.map fun r => r.getD col 0) shape0 k_min k_max rr)
          shape1 k_min k_max cc) := by
  have hK : 0 < (k_max - k_min).toNat := by omega
  constructor
  · intro a b ha hb
    have hDRhead :
        ((s.map fun row => dft row k_min k_max).headD []).length =
          (k_max - k_min).toNat := by
      obtain ⟨x, xs, rfl⟩ : ∃ x xs, s = x :: xs := by
        cases s with
        | nil => simp at hs
        | cons x xs => exact ⟨x, xs, rfl⟩
      simp [dft_length]
    have hDChead :
        ((((List.range (k_max - k_min).toNat)).map fun col =>
          dft ((s.map fun row => dft row k_min k_max).map fun r =>
            r.getD col 0) k_min k_max).headD []).length =
          (k_max - k_min).toNat := by
      rw [headD_map_range_list _ _ hK, dft_length]
    have h2 : dft2 s k_min k_max =
        (List.range (k_max - k_min).toNat).map fun j =>
          ((List.range (k_max - k_min).toNat).map fun col =>
            dft ((s.map fun row => dft row k_min k_max).map fun r =>
              r.getD col 0) k_min k_max).map fun row => row.getD j 0 := by
      rw [dft2, hDRhead, transposeGrid, hDChead]
    rw [h2, getD_map_range_list _ _ a ha, List.map_map,
      getD_map_range _ _ b hb]
    simp only [Function.comp_apply]
    rw [dft_getD _ _ _ a ha]
    congr 1
    rw [List.map_map]
    apply List.map_congr_left
    intro row _
    simp only [Function.comp_apply]
    exact dft_getD row k_min k_max b hb
  · intro rr cc hrr hcc
    have hthead : (t.headD []).length = Ct := by
      obtain ⟨y, ys, rfl⟩ : ∃ y ys, t = y :: ys := by
        cases t with
        | nil => simp at ht
        | cons y ys => exact ⟨y, ys, rfl⟩
      simpa using htrect y (List.mem_cons_self y ys)
    have hICPhead :
        ((((List.range Ct)).map fun col =>
          idft (t.map fun r => r.getD col 0) shape0 k_min k_max).headD
            []).length = shape0 := by
      rw [headD_map_range_list _ _ hCt, idft_length]
    have h2 : idft2 t shape0 shape1 k_min k_max =
        ((List.range shape0).map fun j =>
          ((List.range Ct).map fun col =>
            idft (t.map fun r => r.getD col 0) shape0 k_min k_max).map
              fun row => row.getD j 0).map
          fun row => idft row shape1 k_min k_max := by
      rw [idft2, hthead, transposeGrid, hICPhead]
    rw [h2, List.map_map, getD_map_range_list _ _ rr hrr]
    simp only [Function.comp_apply]
    rw [idft_getD _ _ _ _ cc hcc]
    congr 1
    rw [List.map_map]
    apply List.map_congr_left
    intro col _
    simp only [Function.comp_apply]
    exact idft_getD _ shape0 k_min k_max rr hrr

/-- Witness for C9 on the 1×1 grids `[[1]]` with window `[0, 1)` and shapes
`shape0 = shape1 = 1`. -/
theorem dft2_idft2_separable_witness :
    ((dft2 [[(1 : ℂ)]] 0 1).getD 0 []).getD 0 0 =
      dftEntry ([[(1 : ℂ)]].map fun row => dftEntry row (0 + (0 : ℕ)))
        (0 + (0 : ℕ)) ∧
    ((idft2 [[(1 : ℂ)]] 1 1 0 1).getD 0 []).getD 0 0 =
      idftEntry ((List.range 1).map fun col =>
          idftEntry ([[(1 : ℂ)]].map fun r => r.getD col 0) 1 0 1 0) 1 0 1 0 := by
  have h := dft2_idft2_separable [[(1 : ℂ)]] [[(1 : ℂ)]] 0 1 1 1 1 1
    (by simp) (by simp) (by simp) (by simp) (by norm_num) (by norm_num)
  exact ⟨h.1 0 0 (by norm_num) (by norm_num), h.2 0 0 (by norm_num) (by norm_num)⟩
